import Mathlib

/-!
Verification of the smithery-servers-scrapper repository.

The Python sources (`smithery_scraper.py`, `missing_servers_checker.py`,
`rescrape_missing_servers.py`) are shallowly embedded below.  Pure string
manipulation is translated onto `List Char` (Python strings are sequences of
code points, as are Lean `String.data` lists); functions that can raise a
Python exception are translated into `Except String`; the browser/renderer is
abstracted as an oracle argument where a component only consumes its output.
-/

deriving instance DecidableEq for Except

namespace Scraper

/-- ASCII uppercase letter (code points 65-90). -/
def asciiUpper (c : Char) : Bool := 65 ≤ c.toNat && c.toNat ≤ 90

/-- ASCII lowercase letter (code points 97-122); Python `str.islower()` on
the scraped ASCII identifiers. -/
def asciiLower (c : Char) : Bool := 97 ≤ c.toNat && c.toNat ≤ 122

/-- ASCII letter; Python `c.isascii() and c.isalpha()`. -/
def asciiAlpha (c : Char) : Bool := asciiUpper c || asciiLower c

/-- Python `str.lower()` on one character, restricted to ASCII (the only
text the embedded code lowercases is a `urlsplit` scheme, which is
validated to be ASCII first). -/
def pyLower (c : Char) : Char :=
  if 65 ≤ c.toNat && c.toNat ≤ 90 then Char.ofNat (c.toNat + 32) else c

/-- The set of characters Python's `str.strip()` / `str.split()` treat as
whitespace (Unicode whitespace per `str.isspace`), by code point. -/
def pyIsSpace (c : Char) : Bool :=
  c.toNat = 0x20 || c.toNat = 0x09 || c.toNat = 0x0a || c.toNat = 0x0d ||
  c.toNat = 0x0b || c.toNat = 0x0c ||
  c.toNat = 0x1c || c.toNat = 0x1d || c.toNat = 0x1e || c.toNat = 0x1f ||
  c.toNat = 0x85 || c.toNat = 0xa0 || c.toNat = 0x1680 ||
  (0x2000 ≤ c.toNat && c.toNat ≤ 0x200a) ||
  c.toNat = 0x2028 || c.toNat = 0x2029 || c.toNat = 0x202f ||
  c.toNat = 0x205f || c.toNat = 0x3000

/-- Python `str.strip()` on a list of characters. -/
def pyStripL (l : List Char) : List Char :=
  ((l.dropWhile pyIsSpace).reverse.dropWhile pyIsSpace).reverse

/-- Python `str.strip()` on a `String`. -/
def pyStripS (s : String) : String := ⟨pyStripL s.data⟩

/-- Python `str.rstrip("/")`. -/
def rstripSlash (l : List Char) : List Char :=
  (l.reverse.dropWhile (· = '/')).reverse

/-- Split a list at the first occurrence of `c`: returns the part before it
and, when `c` occurs, the part after it (Python `str.split(c, 1)` /
`str.find`). -/
def splitFirst (c : Char) : List Char → List Char × Option (List Char)
  | [] => ([], none)
  | a :: rest =>
    if a = c then ([], some rest)
    else
      let (pre, post) := splitFirst c rest
      (a :: pre, post)

/-- `scheme_chars` of CPython `urllib.parse`: ASCII letters, digits and
`+` (43), `-` (45), `.` (46), by code point. -/
def isSchemeChar (c : Char) : Bool :=
  asciiAlpha c || (48 ≤ c.toNat && c.toNat ≤ 57) ||
  c.toNat = 43 || c.toNat = 45 || c.toNat = 46

/-- Result of `urllib.parse.urlsplit` (the five components). -/
structure USplit where
  scheme : List Char
  netloc : List Char
  path : List Char
  query : List Char
  fragment : List Char
deriving DecidableEq, Repr

/-- CPython `urllib.parse.urlsplit` for `str` input with
`allow_fragments=True`, as called by `normalize_server_url`:
leading C0-control-or-space characters are dropped, `\t`/`\r`/`\n` are
removed everywhere, an RFC scheme is split off and lowercased, a `//`
authority is split off (raising `ValueError("Invalid IPv6 URL")` when it
contains an unmatched square bracket), then fragment and query are split
off.  (CPython ≥ 3.11 additionally validates bracketed hosts; those extra
errors also occur only when the authority contains a bracket.) -/
def lstripControl (l : List Char) : List Char := l.dropWhile fun c => c.toNat ≤ 0x20

/-- The `_UNSAFE_URL_BYTES_TO_REMOVE` removal of CPython `urlsplit`:
tab, carriage return and newline are deleted everywhere. -/
def removeUnsafeChars (l : List Char) : List Char :=
  l.filter fun c => !(c = '\t' || c = '\r' || c = '\n')

/-- CPython `urlsplit` scheme validity: non-empty, leading ASCII letter,
all characters in `scheme_chars`. -/
def schemeOk (pre : List Char) : Bool :=
  !pre.isEmpty && (match pre.head? with | some c => asciiAlpha c | none => false) &&
  pre.all isSchemeChar

/-- Scheme extraction of CPython `urlsplit`: split at the first `:`; when
the part before it is a valid scheme, return it lowercased together with
the remainder, else no scheme. -/
def splitScheme (url : List Char) : List Char × List Char :=
  match splitFirst ':' url with
  | (pre, some post) => if schemeOk pre then (pre.map pyLower, post) else ([], url)
  | (_, none) => ([], url)

/-- A character that does not end the netloc (`_splitnetloc` scans until
`/`, `?` or `#`). -/
def notDelim (c : Char) : Bool := !(c = '/' || c = '?' || c = '#')

/-- `_splitnetloc` of CPython `urlsplit`: after a leading `//`, the netloc
runs until the first `/`, `?` or `#`. -/
def splitNetloc (url : List Char) : List Char × List Char :=
  match url with
  | '/' :: '/' :: r => (r.takeWhile notDelim, r.dropWhile notDelim)
  | _ => ([], url)

/-- Python `url.split(c, 1)` used for the fragment and query: the part
before the first `c` and the part after it (empty when `c` is absent). -/
def splitTail (c : Char) (l : List Char) : List Char × List Char :=
  match splitFirst c l with
  | (pre, some post) => (pre, post)
  | (pre, none) => (pre, [])

/-- The unmatched-square-bracket test on the netloc that makes CPython
`urlsplit` raise `ValueError("Invalid IPv6 URL")`. -/
def badBrackets (netloc : List Char) : Bool :=
  (netloc.contains '[' && !netloc.contains ']') ||
  (netloc.contains ']' && !netloc.contains '[')

/-- Python `str.isascii()` on one character (code point below 128). -/
def pyIsAscii (c : Char) : Bool := c.toNat ≤ 0x7f

/-- CPython `urlsplit` raises `ValueError` from three netloc validations,
two of which this embedding approximates conservatively (it errors
wherever the real check can possibly raise, so a `.ok` result of the
model is always a `.ok` of CPython, and on an ASCII bracket-free netloc —
the only netlocs about which any theorem below asserts success — model
and CPython agree exactly):
1. an unmatched `[` or `]` raises `"Invalid IPv6 URL"` (modelled exactly);
2. a bracketed host is validated as an IPv6/IPvFuture address by
   `_check_bracketed_host` (CPython ≥ 3.11) and raises when invalid;
   address parsing is not modelled, so every bracketed host errors here;
3. `_checknetloc` (CPython ≥ 3.7.3) accepts every ASCII netloc
   immediately and otherwise raises when NFKC normalization changes the
   netloc and introduces a delimiter; the NFKC tables are not modelled,
   so every non-ASCII netloc errors here. -/
def urlsplitE (url0 : List Char) : Except String USplit :=
  let url2 := removeUnsafeChars (lstripControl url0)
  let sr := splitScheme url2
  let nr := splitNetloc sr.2
  if badBrackets nr.1 then .error "Invalid IPv6 URL"
  else if nr.1.contains '[' && nr.1.contains ']' then
    .error "invalid bracketed host (approximated)"
  else if !(nr.1.all pyIsAscii) then
    .error "netloc rejected by NFKC check (approximated)"
  else
    let ff := splitTail '#' nr.2
    let qq := splitTail '?' ff.1
    .ok ⟨sr.1, nr.1, qq.1, qq.2, ff.2⟩

/-- The netloc step of CPython `urlunsplit`: when a netloc is present (or
the path starts with `//`), a non-empty path not starting with `/` gets a
leading slash and `//netloc` is prepended. -/
def addNetloc (netloc url : List Char) : List Char :=
  if netloc ≠ [] ∨ url.take 2 = ['/', '/'] then
    '/' :: '/' :: (netloc ++ (if url ≠ [] ∧ url.head? ≠ some '/' then '/' :: url else url))
  else url

/-- The scheme step of CPython `urlunsplit`. -/
def addScheme (scheme url : List Char) : List Char :=
  if scheme ≠ [] then scheme ++ ':' :: url else url

/-- The query step of CPython `urlunsplit`. -/
def addQuery (query url : List Char) : List Char :=
  if query ≠ [] then url ++ '?' :: query else url

/-- The fragment step of CPython `urlunsplit`. -/
def addFragment (fragment url : List Char) : List Char :=
  if fragment ≠ [] then url ++ '#' :: fragment else url

/-- CPython `urllib.parse.urlunsplit`. -/
def urlunsplit (scheme netloc url query fragment : List Char) : List Char :=
  addFragment fragment (addQuery query (addScheme scheme (addNetloc netloc url)))

/-- `BASE_URL` of `missing_servers_checker.py`. -/
def BASE_URL : String := "https://smithery.ai"

/-- `normalize_server_url` of `missing_servers_checker.py` (lines 28-47).
Empty input returns `""`; otherwise the input is stripped, a `/server/`
relative path is prefixed with `BASE_URL`, the URL is split, scheme and
netloc are defaulted (`https` / `smithery.ai`), trailing slashes are removed
from the path, and the parts are reassembled with empty query and fragment.
The `Except` propagates the `ValueError` that `urlsplit` can raise. -/
def normalize_server_url (url : String) : Except String String :=
  if url = "" then .ok ""
  else
    let u0 := pyStripL url.data
    let u1 := if ("/server/".data).isPrefixOf u0 then BASE_URL.data ++ u0 else u0
    match urlsplitE u1 with
    | .error e => .error e
    | .ok r =>
      let scheme := if r.scheme = [] then "https".data else r.scheme
      let netloc := if r.netloc = [] then "smithery.ai".data else r.netloc
      let path := rstripSlash r.path
      .ok ⟨urlunsplit scheme netloc path [] []⟩

/-- The character list `normalize_server_url` hands to `urlsplit`: the
stripped input, prefixed with `BASE_URL` when it is a `/server/` relative
path. -/
def normInput (x : String) : List Char :=
  if ("/server/".data).isPrefixOf (pyStripL x.data) then BASE_URL.data ++ pyStripL x.data
  else pyStripL x.data

/-- The Python `set`-building loops of `find_missing_servers`
(`missing_servers_checker.py` lines 80-90): normalize every URL, keep the
non-empty results.  An exception raised by `normalize_server_url`
propagates, as in Python. -/
def collectNormalized (urls : List String) : Except String (Finset String) :=
  urls.foldlM
    (fun s u => (normalize_server_url u).map fun n => if n ≠ "" then insert n s else s)
    ∅

/-- Python `sorted` on a set of strings (ascending lexicographic order). -/
def sortedUrls (s : Finset String) : List String := s.sort (· ≤ ·)

/-- `find_missing_servers` of `missing_servers_checker.py` (lines 76-92):
normalize both inputs, drop empty normalizations, and return the sorted set
difference current − scraped. -/
def find_missing_servers (scraped current : List String) : Except String (List String) := do
  let scrapedSet ← collectNormalized scraped
  let currentSet ← collectNormalized current
  return sortedUrls (currentSet \ scrapedSet)

/-- The pure normalized-set function used to state what
`find_missing_servers` computes when no input raises: URLs whose
normalization raises contribute nothing (under the no-raise hypotheses of
the theorems below this case does not occur). -/
def okNormSet (urls : List String) : Finset String :=
  urls.foldl
    (fun s u =>
      match normalize_server_url u with
      | .ok n => if n ≠ "" then insert n s else s
      | .error _ => s)
    ∅

/-- The sequential fallback loop of `fetch_current_server_urls`
(`missing_servers_checker.py` lines 184-202): starting at page 2, fetch
pages until one returns no URLs, until `page > max_pages` (when `max_pages`
is truthy), or until the 100-page safety limit.  `f` abstracts
`_fetch_page_urls`, giving the set of normalized URLs a listing page
yields; `fuel` only bounds the recursion and is chosen so that the
safety-limit test always fires first. -/
def crawlSeq (f : Nat → Finset String) (max_pages : Option Nat) :
    Nat → Finset String → Nat → Finset String
  | _, acc, 0 => acc
  | page, acc, fuel + 1 =>
    let pageUrls := f page
    if pageUrls = ∅ then acc
    else
      let acc := acc ∪ pageUrls
      let page := page + 1
      if (match max_pages with | some m => m ≠ 0 && page > m | none => false) then acc
      else if page > 100 then acc
      else crawlSeq f max_pages page acc fuel

/-- `fetch_current_server_urls` of `missing_servers_checker.py`
(lines 143-204).  `f` abstracts `_fetch_page_urls` (the Playwright page
fetch): for a page number it returns the set of normalized server URLs
found there together with the total-page count detected from the page's
`current / total` indicator.  Page 1 seeds the URL set; a known total > 1
fetches pages `2..total` (in parallel in the source — the union is
order-independent); otherwise the sequential fallback `crawlSeq` runs.
The result is sorted.  The `delay_ms` and `threads` parameters of the
source affect only timing, not the returned value. -/
def fetch_current_server_urls (f : Nat → Finset String × Option Nat)
    (max_pages : Option Nat) : List String :=
  let firstUrls := (f 1).1
  let detected := (f 1).2
  let total_pages : Option Nat :=
    match max_pages with
    | some m => some m
    | none => match detected with | some t => if t ≠ 0 then some t else none | none => none
  if (match total_pages with | some t => decide (t > 1) | none => false) then
    sortedUrls (firstUrls ∪ (Finset.Icc 2 (total_pages.getD 0)).biUnion fun n => (f n).1)
  else
    sortedUrls (crawlSeq (fun n => (f n).1) max_pages 2 firstUrls 99)

/-- A concrete three-page listing source used to instantiate the discovery
fallback theorem: pages 1-3 yield one URL each, page 4 and beyond are
empty, and no total-page indicator is ever detected. -/
def threePageSource (n : Nat) : Finset String × Option Nat :=
  (if n = 1 then {"a"} else if n = 2 then {"b"} else if n = 3 then {"c"} else ∅, none)

/-- Crawl-outcome labels (`classify` in `rescrape_missing_servers.py`
returns the strings `"SUCCESS"`, `"PARTIAL"`, `"FAILED"`). -/
inductive CrawlOutcome
  | SUCCESS
  | PARTIAL
  | FAILED
deriving DecidableEq, Repr

/-- `classify` of `rescrape_missing_servers.py` (lines 125-132) as a
function of `tools_count = len(server_data.get("tools", []))` and
`expected = server_data.get("total_tools", 0)`; the same conditional
chain updates the success/partial/failed statistics in
`smithery_scraper.py` (lines 506-511). -/
def classify (tools_count : Nat) (expected : Int) : CrawlOutcome :=
  if (tools_count : Int) = expected ∧ expected > 0 then .SUCCESS
  else if tools_count > 0 then .PARTIAL
  else .FAILED

mutual

/-- JSON-like Python values handled by the scraper's record code
(`json.loads` output).  Numbers are modelled as integers — the only number
field the embedded code computes with (`total_tools`) is integral.
Arrays and objects carry their own list types so that structural equality
(Python `==` on parsed JSON) is derivable. -/
inductive JValue
  | str (s : String)
  | num (n : Int)
  | bool (b : Bool)
  | null
  | arr (elems : JList)
  | obj (fields : JFields)

/-- A JSON array's elements. -/
inductive JList
  | nil
  | cons (head : JValue) (tail : JList)

/-- A JSON object's fields (`json.loads` output has no duplicate keys). -/
inductive JFields
  | nil
  | cons (key : String) (val : JValue) (tail : JFields)

end

deriving instance DecidableEq for JValue
deriving instance DecidableEq for JList
deriving instance DecidableEq for JFields

/-- View a JSON array as a Lean list. -/
def JList.toList : JList → List JValue
  | .nil => []
  | .cons h t => h :: t.toList

/-- Build a JSON array from a Lean list. -/
def JList.ofList : List JValue → JList
  | [] => .nil
  | h :: t => .cons h (JList.ofList t)

/-- View a JSON object's fields as an association list. -/
def JFields.toList : JFields → List (String × JValue)
  | .nil => []
  | .cons k v t => (k, v) :: t.toList

/-- Build JSON object fields from an association list. -/
def JFields.ofList : List (String × JValue) → JFields
  | [] => .nil
  | (k, v) :: t => .cons k v (JFields.ofList t)

/-- A Python dict with string keys (one `json.loads`-parsed record). -/
abbrev JObj := List (String × JValue)

/-- Python `dict.get(k, default)`. -/
def jGetD (d : JObj) (k : String) (default : JValue) : JValue :=
  match List.lookup k d with
  | some v => v
  | none => default

/-- Python `d[k]` returns `some v`; `none` models the `KeyError` raised when
the key is absent. -/
def jGet (d : JObj) (k : String) : Option JValue := List.lookup k d

/-- The tool-normalization loop body of `SmitheryScraper.normalize_server`
(`smithery_scraper.py` lines 72-79): a dict tool is reduced to exactly
`name`, `description`, `inputSchema` with defaults `""`, `""`, `{}`. -/
def normalize_tool (tool : JObj) : JObj :=
  [("name", jGetD tool "name" (.str "")),
   ("description", jGetD tool "description" (.str "")),
   ("inputSchema", jGetD tool "inputSchema" (.obj .nil))]

/-- `SmitheryScraper.normalize_server` (`smithery_scraper.py` lines 52-84):
string fields are copied with `""` defaults, a non-list `tools` value is
replaced by `[]`, non-dict tool entries are dropped, each dict tool is
normalized, and `total_tools` is overwritten with the length of the
normalized tool list (the `server.get("total_tools", 0)` value read first
is discarded by the final assignment). -/
def normalize_server (server : JObj) : JObj :=
  let rawTools : List JValue :=
    match jGetD server "tools" (.arr .nil) with
    | .arr xs => xs.toList
    | _ => []
  let normalizedTools : List JValue :=
    rawTools.filterMap fun t =>
      match t with
      | .obj fields => some (.obj (JFields.ofList (normalize_tool fields.toList)))
      | _ => none
  [("server_name", jGetD server "server_name" (.str "")),
   ("server_url", jGetD server "server_url" (.str "")),
   ("connection_url", jGetD server "connection_url" (.str "")),
   ("homepage", jGetD server "homepage" (.str "")),
   ("source_code", jGetD server "source_code" (.str "")),
   ("authentication_method", jGetD server "authentication_method" (.str "")),
   ("description", jGetD server "description" (.str "")),
   ("total_tools", .num normalizedTools.length),
   ("tools", .arr (JList.ofList normalizedTools))]

/-- The JSONL replay loop of `SmitheryScraper.save_to_json`
(`smithery_scraper.py` lines 774-783): every line is read, stripped,
non-empty lines are parsed, and lines that fail to parse are discarded
with a warning.  `parse` abstracts `json.loads` restricted to lines
encoding a JSON object (`none` = `json.JSONDecodeError`). -/
def replay_jsonl (parse : String → Option JObj) (lines : List String) : List JObj :=
  lines.foldl
    (fun acc l =>
      if pyStripS l ≠ "" then
        match parse (pyStripS l) with
        | some r => acc ++ [r]
        | none => acc
      else acc)
    []

/-- The merge loop of `SmitheryScraper.save_to_json` (`smithery_scraper.py`
lines 786-789): `existing_urls` is the set of `server_url` values of the
in-memory records, computed once; replayed records whose URL is in that
set are skipped, the rest are appended.  Python's `s["server_url"]` raises
`KeyError` for a record without the key; the lookup is modelled as
`Option` and compared as such, which agrees with Python whenever every
record carries the key. -/
def merge_with_jsonl (memory replayed : List JObj) : List JObj :=
  let existing : List (Option JValue) := memory.map fun s => jGet s "server_url"
  memory ++ replayed.filter fun r => ¬ existing.contains (jGet r "server_url")

/-- The final-artifact construction of `SmitheryScraper.save_to_json`
(`smithery_scraper.py` lines 766-797) for an incremental run: replay the
JSONL log, merge with the in-memory records, and normalize every record
before writing. -/
def save_to_json_output (parse : String → Option JObj) (memory : List JObj)
    (lines : List String) : List JObj :=
  (merge_with_jsonl memory (replay_jsonl parse lines)).map normalize_server

/-- The `server_url` values of a record list, as Python reads them with
`s["server_url"]` (`none` marks a record without the key, where Python
would raise `KeyError`). -/
def urlsOf (l : List JObj) : List (Option JValue) :=
  l.map fun r => jGet r "server_url"

/-- One JSONL line of the durable log: the serialization of a record whose
only field is a `server_url` (braces written as escapes). -/
def dupLine : String := "\x7b\"server_url\": \"https://smithery.ai/server/a\"\x7d"

/-- The record `json.loads` produces for `dupLine`. -/
def dupRecord : JObj := [("server_url", JValue.str "https://smithery.ai/server/a")]

/-- `json.loads` restricted to the single line the durable-log
counterexample uses (any other line fails to parse). -/
def dupParse (l : String) : Option JObj := if l = dupLine then some dupRecord else none

/-- A sample scraped record with a stale declared count, one dict tool and
one non-dict tool entry, used to instantiate the `normalize_server`
theorem. -/
def sampleServer : JObj :=
  [("total_tools", JValue.num 99),
   ("tools", JValue.arr (JList.ofList
     [JValue.obj (JFields.ofList [("name", JValue.str "t1")]), JValue.str "junk"]))]

/-- Split a character list at every separator (Python `str.split(sep)`:
empty pieces are kept, so `"a\n\nb"` gives three pieces). -/
def splitWhen (p : Char → Bool) : List Char → List (List Char)
  | [] => [[]]
  | c :: rest =>
    if p c then [] :: splitWhen p rest
    else
      match splitWhen p rest with
      | h :: t => (c :: h) :: t
      | [] => [[c]]

/-- `len(line.split())` — Python whitespace-run word count (empty pieces
discarded). -/
def wordCount (l : List Char) : Nat :=
  ((splitWhen pyIsSpace l).filter (· ≠ [])).length

/-- Python `str.isupper()`: at least one cased character and no lowercase
one (cased approximated by ASCII letters, which covers the scraped
`ALL_CAPS_WITH_UNDERSCORES` tool names). -/
def pyIsUpper (l : List Char) : Bool :=
  l.any asciiAlpha && l.all fun c => !asciiLower c

/-- The `'*required'` marker of `parse_parameters_from_text`. -/
def requiredMarker : List Char := "*required".data

/-- Python `'needle' in haystack`: substring containment. -/
def containsSeq (needle : List Char) : List Char → Bool
  | [] => needle.isEmpty
  | c :: rest => needle.isPrefixOf (c :: rest) || containsSeq needle rest

/-- Python `line.replace('*required', '')` (remove every non-overlapping,
left-to-right occurrence of the 9-character marker); the fuel starts at the
list length, which the recursion never exhausts. -/
def dropRequiredAux : Nat → List Char → List Char
  | 0, l => l
  | _ + 1, [] => []
  | fuel + 1, c :: rest =>
    if requiredMarker.isPrefixOf (c :: rest) then dropRequiredAux fuel (rest.drop 8)
    else c :: dropRequiredAux fuel rest

/-- Python `line.replace('*required', '')`. -/
def dropRequired (l : List Char) : List Char := dropRequiredAux l.length l

/-- One parsed parameter: the `{"type": ..., "description": ...}` dict
built by `parse_parameters_from_text`. -/
structure PInfo where
  type : String
  description : String
deriving DecidableEq, Repr

/-- Python dict assignment `parameters[k] = v`: an existing key keeps its
position and gets the new value, a new key is appended. -/
def dictInsert (k : String) (v : PInfo) (d : List (String × PInfo)) :
    List (String × PInfo) :=
  if d.any (fun kv => kv.1 = k) then
    d.map fun kv => if kv.1 = k then (k, v) else kv
  else d ++ [(k, v)]

/-- The type keywords recognized by `parse_parameters_from_text`
(`smithery_scraper.py` line 127). -/
def typeTokens : List (List Char) :=
  ["string".data, "integer".data, "boolean".data, "object".data,
   "array".data, "number".data]

/-- The section-boundary tokens of `parse_parameters_from_text`
(`smithery_scraper.py` line 119). -/
def sectionTokens : List (List Char) :=
  ["Connect".data, "Details".data, "Resources".data, "Company".data,
   "Capabilities".data, "Get connection URL".data, "Or add to your client".data]

/-- Loop state of `parse_parameters_from_text`: the pending parameter, its
type, its accumulated description lines, the finished mapping and required
list, and whether a `break` has fired (remaining lines are then ignored).
The source also tracks a `desc_line_count` counter that is never read; it
is omitted. -/
structure PState where
  current_param : Option (List Char)
  param_type : Option (List Char)
  param_desc : List (List Char)
  parameters : List (String × PInfo)
  required_params : List String
  stopped : Bool

/-- The "save parameter if complete" step of `parse_parameters_from_text`
(`smithery_scraper.py` lines 152-159 and 174-181): a pending parameter with
a type is stored under its cleaned name (marker removed, stripped) with the
space-joined stripped description; the marker's presence appends the
cleaned name to the required list.  A pending parameter without a type is
dropped. -/
def finalizePending (st : PState) : PState :=
  match st.current_param, st.param_type with
  | some cur, some ty =>
    let nameClean : String := ⟨pyStripL (dropRequired cur)⟩
    { st with
      parameters :=
        dictInsert nameClean
          ⟨⟨ty⟩, ⟨pyStripL (List.intercalate [' '] st.param_desc)⟩⟩ st.parameters,
      required_params :=
        if containsSeq requiredMarker cur then st.required_params ++ [nameClean]
        else st.required_params }
  | _, _ => st

/-- The per-line body of `parse_parameters_from_text`'s loop
(`smithery_scraper.py` lines 111-171), in source order: strip; skip empty;
break on section tokens; break on a long all-caps underscore line (next
tool name); a type keyword right after a parameter name sets the type;
a line matching the parameter-name shape finalizes the pending parameter
and starts a new one; otherwise a line while parameter and type are
pending joins the description. -/
def looksLikeParamName (line : List Char) : Bool :=
  !line.isEmpty && decide (line.length < 50) && decide (wordCount line ≤ 2) &&
  ((match line.head? with | some c => asciiLower c | none => false) ||
    containsSeq requiredMarker line) &&
  (containsSeq requiredMarker line || !line.contains ' ' ||
    decide (line.count ' ' = 0))

/-- The body of the loop applied to the already-stripped line (the second
half of `paramStep`). -/
def paramStepStripped (st : PState) (line : List Char) : PState :=
  if line.isEmpty then st
  else if sectionTokens.contains line then { st with stopped := true }
  else if pyIsUpper line && line.contains '_' && decide (line.length > 15) then
    { st with stopped := true }
  else if typeTokens.contains line then
    if st.current_param.isSome && st.param_type.isNone then
      { st with param_type := some line }
    else st
  else if looksLikeParamName line then
    { finalizePending st with current_param := some line, param_type := none, param_desc := [] }
  else if st.current_param.isSome && st.param_type.isSome && !line.isEmpty then
    { st with param_desc := st.param_desc ++ [line] }
  else st

def paramStep (st : PState) (rawLine : List Char) : PState :=
  if st.stopped then st
  else paramStepStripped st (pyStripL rawLine)

/-- `SmitheryScraper.parse_parameters_from_text` (`smithery_scraper.py`
lines 86-183): split `text[start_pos:]` into lines, run the line loop, and
finalize the last pending parameter (this also happens after a `break`).
Returns the parameter mapping and the required-names list. -/
def parseInitState : PState :=
  { current_param := none, param_type := none, param_desc := [],
    parameters := [], required_params := [], stopped := false }

def parse_parameters_from_text (text : String) (start_pos : Nat) :
    List (String × PInfo) × List String :=
  let lines := splitWhen (· = '\n') (text.data.drop start_pos)
  let st := lines.foldl paramStep parseInitState
  let st := finalizePending st
  (st.parameters, st.required_params)

/-- The invariant the parameter-parser loop maintains: every stored
parameter has one of the six primitive type tokens, every required name is
a key of the mapping, and a pending type is always one of the tokens. -/
def ParamInv (st : PState) : Prop :=
  (∀ kv ∈ st.parameters, kv.2.type.data ∈ typeTokens) ∧
  (∀ n ∈ st.required_params, ∃ kv ∈ st.parameters, kv.1 = n) ∧
  (∀ t, st.param_type = some t → t ∈ typeTokens)

/-- The shape every non-empty `normalize_server_url` output has:
`scheme://netloc` followed by the (possibly empty) slash-prefixed path. -/
def mkUrl (s n p : List Char) : List Char :=
  s ++ ':' :: '/' :: '/' :: (n ++ p)

/-- The invariants the three components of a `normalize_server_url` output
satisfy, which make the output re-parse to the same components. -/
structure GoodParts (s n p : List Char) : Prop where
  s_ne : s ≠ []
  s_head : ∃ c, s.head? = some c ∧ asciiAlpha c = true
  s_chars : ∀ c ∈ s, isSchemeChar c = true ∧ pyLower c = c
  n_ne : n ≠ []
  n_chars : ∀ c ∈ n, notDelim c = true ∧ (!(c = '\t' || c = '\r' || c = '\n')) = true
  n_nobr : '[' ∉ n ∧ ']' ∉ n
  n_ascii : ∀ c ∈ n, pyIsAscii c = true
  p_head : p = [] ∨ p.head? = some '/'
  p_chars : ∀ c ∈ p, c ≠ '?' ∧ c ≠ '#' ∧ (!(c = '\t' || c = '\r' || c = '\n')) = true
  p_last : ∀ c, p.getLast? = some c → c ≠ '/'

/-! ### Helper lemmas -/

theorem splitFirst_some (c : Char) (l : List Char) :
    ∀ pre post, splitFirst c l = (pre, some post) → l = pre ++ c :: post ∧ c ∉ pre := by
  induction l with
  | nil => intro pre post h; simp [splitFirst] at h
  | cons a t ih =>
    intro pre post h
    by_cases hac : a = c
    · subst hac
      simp [splitFirst] at h
      obtain ⟨h1, h2⟩ := h
      subst h1; subst h2; simp
    · simp only [splitFirst, if_neg hac, Prod.mk.injEq] at h
      obtain ⟨h1, h2⟩ := h
      have hsp : splitFirst c t = ((splitFirst c t).1, some post) := by
        rw [← h2]
      obtain ⟨ht, hnm⟩ := ih _ post hsp
      subst h1
      constructor
      · rw [List.cons_append, ← ht]
      · simp only [List.mem_cons]
        rintro (rfl | hm)
        · exact hac rfl
        · exact hnm hm

theorem splitFirst_none (c : Char) (l : List Char) :
    ∀ pre, splitFirst c l = (pre, none) → pre = l ∧ c ∉ l := by
  induction l with
  | nil =>
    intro pre h
    have h1 : (([] : List Char), (none : Option (List Char))) = (pre, none) := h
    have h2 : pre = ([] : List Char) := (Prod.mk.injEq .. ▸ h1).1.symm
    subst h2
    simp
  | cons a t ih =>
    intro pre h
    by_cases hac : a = c
    · exfalso; subst hac; simp [splitFirst] at h
    · simp only [splitFirst, if_neg hac, Prod.mk.injEq] at h
      obtain ⟨h1, h2⟩ := h
      have hsp : splitFirst c t = ((splitFirst c t).1, none) := by
        rw [← h2]
      obtain ⟨ht, hnm⟩ := ih _ hsp
      subst h1
      constructor
      · rw [ht]
      · simp only [List.mem_cons]
        rintro (rfl | hm)
        · exact hac rfl
        · exact hnm hm

theorem splitFirst_of_not_mem (c : Char) (l : List Char) (h : c ∉ l) :
    splitFirst c l = (l, none) := by
  induction l with
  | nil => rfl
  | cons a t ih =>
    simp only [List.mem_cons] at h
    push_neg at h
    have hac : ¬ a = c := fun he => h.1 he.symm
    simp [splitFirst, if_neg hac, ih h.2]

theorem splitFirst_append_cons (c : Char) (pre post : List Char) (h : c ∉ pre) :
    splitFirst c (pre ++ c :: post) = (pre, some post) := by
  induction pre with
  | nil => simp [splitFirst]
  | cons a t ih =>
    simp only [List.mem_cons] at h
    push_neg at h
    have hac : ¬ a = c := fun he => h.1 he.symm
    simp [splitFirst, if_neg hac, ih h.2]

theorem head_dropWhile_false (p : Char → Bool) (l : List Char) :
    ∀ b, (l.dropWhile p).head? = some b → p b = false := by
  induction l with
  | nil => intro b hb; simp [List.dropWhile] at hb
  | cons a t ih =>
    intro b hb
    by_cases hpa : p a
    · rw [List.dropWhile_cons_of_pos hpa] at hb; exact ih b hb
    · rw [List.dropWhile_cons_of_neg hpa] at hb
      obtain rfl : a = b := by simpa using hb
      simpa using hpa

theorem dropWhile_eq_self_of_head (p : Char → Bool) (l : List Char)
    (h : ∀ b, l.head? = some b → p b = false) : l.dropWhile p = l := by
  cases l with
  | nil => rfl
  | cons a t => rw [List.dropWhile_cons_of_neg]; simp [h a rfl]

theorem takeWhile_append_of_all (p : Char → Bool) (l₁ l₂ : List Char)
    (h1 : ∀ a ∈ l₁, p a = true)
    (h2 : ∀ b, l₂.head? = some b → p b = false) :
    (l₁ ++ l₂).takeWhile p = l₁ ∧ (l₁ ++ l₂).dropWhile p = l₂ := by
  induction l₁ with
  | nil =>
    simp only [List.nil_append, true_and]
    constructor
    · cases l₂ with
      | nil => rfl
      | cons b t => rw [List.takeWhile_cons_of_neg]; simp [h2 b rfl]
    · exact dropWhile_eq_self_of_head p l₂ h2
  | cons a t ih =>
    have ha := h1 a (by simp)
    have ih' := ih fun x hx => h1 x (by simp [hx])
    simp only [List.cons_append]
    rw [List.takeWhile_cons_of_pos ha, List.dropWhile_cons_of_pos ha]
    simp [ih'.1, ih'.2]

theorem pyStripL_eq_self (l : List Char)
    (h1 : ∀ b, l.head? = some b → pyIsSpace b = false)
    (h2 : ∀ b, l.getLast? = some b → pyIsSpace b = false) :
    pyStripL l = l := by
  unfold pyStripL
  rw [dropWhile_eq_self_of_head _ _ h1, dropWhile_eq_self_of_head, List.reverse_reverse]
  intro b hb
  exact h2 b (by rwa [List.head?_reverse] at hb)

theorem pyStripL_subset (l : List Char) : pyStripL l ⊆ l := by
  intro a ha
  unfold pyStripL at ha
  rw [List.mem_reverse] at ha
  have ha2 := (List.dropWhile_sublist _).subset ha
  rw [List.mem_reverse] at ha2
  exact (List.dropWhile_sublist _).subset ha2

theorem rstripSlash_subset (l : List Char) : rstripSlash l ⊆ l := by
  intro a ha
  unfold rstripSlash at ha
  rw [List.mem_reverse] at ha
  have ha2 := (List.dropWhile_sublist _).subset ha
  rwa [List.mem_reverse] at ha2

theorem rstripSlash_getLast (l : List Char) :
    ∀ b, (rstripSlash l).getLast? = some b → b ≠ '/' := by
  intro b hb
  unfold rstripSlash at hb
  rw [← List.head?_reverse, List.reverse_reverse] at hb
  have := head_dropWhile_false (· = '/') l.reverse b hb
  simpa using this

theorem rstripSlash_eq_self (l : List Char) (h : ∀ b, l.getLast? = some b → b ≠ '/') :
    rstripSlash l = l := by
  unfold rstripSlash
  rw [dropWhile_eq_self_of_head, List.reverse_reverse]
  intro b hb
  have := h b (by rwa [List.head?_reverse] at hb)
  simp [this]

theorem lstripControl_subset (l : List Char) : lstripControl l ⊆ l :=
  (List.dropWhile_sublist _).subset

theorem removeUnsafeChars_subset (l : List Char) : removeUnsafeChars l ⊆ l :=
  List.filter_subset' l

theorem splitNetloc_fst_subset (url : List Char) : (splitNetloc url).1 ⊆ url := by
  unfold splitNetloc
  split
  · intro a ha
    have := (List.takeWhile_sublist _).subset ha
    simp [this]
  · simp

theorem splitScheme_snd_subset (url : List Char) : (splitScheme url).2 ⊆ url := by
  unfold splitScheme
  rcases hsf : splitFirst ':' url with ⟨pre, post⟩
  cases post with
  | none => simp
  | some p =>
    by_cases hs : schemeOk pre
    · simp only [hs, if_pos]
      obtain ⟨hdec, _⟩ := splitFirst_some ':' url pre p hsf
      intro a ha
      rw [hdec]
      simp only [List.mem_append, List.mem_cons]
      exact Or.inr (Or.inr ha)
    · simp [hs]

theorem urlsplitE_eq (l : List Char) :
    urlsplitE l =
      (if badBrackets (splitNetloc (splitScheme (removeUnsafeChars (lstripControl l))).2).1 then
        .error "Invalid IPv6 URL"
      else if
          (splitNetloc (splitScheme (removeUnsafeChars (lstripControl l))).2).1.contains '[' &&
          (splitNetloc (splitScheme (removeUnsafeChars (lstripControl l))).2).1.contains ']' then
        .error "invalid bracketed host (approximated)"
      else if
          !((splitNetloc (splitScheme (removeUnsafeChars (lstripControl l))).2).1.all
            pyIsAscii) then
        .error "netloc rejected by NFKC check (approximated)"
      else
        .ok ⟨(splitScheme (removeUnsafeChars (lstripControl l))).1,
             (splitNetloc (splitScheme (removeUnsafeChars (lstripControl l))).2).1,
             (splitTail '?'
               (splitTail '#'
                 (splitNetloc (splitScheme (removeUnsafeChars (lstripControl l))).2).2).1).1,
             (splitTail '?'
               (splitTail '#'
                 (splitNetloc (splitScheme (removeUnsafeChars (lstripControl l))).2).2).1).2,
             (splitTail '#'
               (splitNetloc (splitScheme (removeUnsafeChars (lstripControl l))).2).2).2⟩) := rfl

theorem urlsplitE_error_msgs (l : List Char) (e : String)
    (h : urlsplitE l = .error e) :
    e = "Invalid IPv6 URL" ∨ e = "invalid bracketed host (approximated)" ∨
      e = "netloc rejected by NFKC check (approximated)" := by
  rw [urlsplitE_eq] at h
  split at h
  · injection h with h2
    exact Or.inl h2.symm
  split at h
  · injection h with h2
    exact Or.inr (Or.inl h2.symm)
  split at h
  · injection h with h2
    exact Or.inr (Or.inr h2.symm)
  · exact Except.noConfusion h

theorem char_contains_iff (l : List Char) (c : Char) : l.contains c = true ↔ c ∈ l := by
  simp [List.contains_iff_exists_mem_beq, beq_iff_eq]

theorem urlsplit_netloc_subset (l : List Char) :
    (splitNetloc (splitScheme (removeUnsafeChars (lstripControl l))).2).1 ⊆ l :=
  fun _ ha =>
    lstripControl_subset l
      (removeUnsafeChars_subset _ (splitScheme_snd_subset _ (splitNetloc_fst_subset _ ha)))

theorem urlsplitE_ok_of_clean (l : List Char) (ha : ∀ c ∈ l, pyIsAscii c = true)
    (h1 : '[' ∉ l) (h2 : ']' ∉ l) : ∃ r, urlsplitE l = .ok r := by
  have hsub := urlsplit_netloc_subset l
  have hnb1 : '[' ∉ (splitNetloc (splitScheme (removeUnsafeChars (lstripControl l))).2).1 :=
    fun hm => h1 (hsub hm)
  have hnb2 : ']' ∉ (splitNetloc (splitScheme (removeUnsafeChars (lstripControl l))).2).1 :=
    fun hm => h2 (hsub hm)
  have hc1 : (splitNetloc (splitScheme (removeUnsafeChars (lstripControl l))).2).1.contains '['
      = false := by
    rcases hv : (splitNetloc (splitScheme (removeUnsafeChars (lstripControl l))).2).1.contains '['
    · rfl
    · exact absurd ((char_contains_iff _ _).mp hv) hnb1
  have hc2 : (splitNetloc (splitScheme (removeUnsafeChars (lstripControl l))).2).1.contains ']'
      = false := by
    rcases hv : (splitNetloc (splitScheme (removeUnsafeChars (lstripControl l))).2).1.contains ']'
    · rfl
    · exact absurd ((char_contains_iff _ _).mp hv) hnb2
  have hall : (splitNetloc (splitScheme (removeUnsafeChars (lstripControl l))).2).1.all pyIsAscii
      = true :=
    List.all_eq_true.mpr fun c hc => ha c (hsub hc)
  rw [urlsplitE_eq, if_neg (by simp [badBrackets, hnb1, hnb2]), if_neg (by simp [hnb1]),
    if_neg (by simp [hall])]
  exact ⟨_, rfl⟩

theorem no_brackets_of_checks (nl : List Char) (hb : badBrackets nl = false)
    (hboth : (nl.contains '[' && nl.contains ']') = false) :
    '[' ∉ nl ∧ ']' ∉ nl := by
  constructor <;> intro hm
  · have hc1 : nl.contains '[' = true := (char_contains_iff nl '[').mpr hm
    rcases hc2 : nl.contains ']'
    · unfold badBrackets at hb
      rw [hc1, hc2] at hb
      simp at hb
    · rw [hc1, hc2] at hboth
      simp at hboth
  · have hc2 : nl.contains ']' = true := (char_contains_iff nl ']').mpr hm
    rcases hc1 : nl.contains '['
    · unfold badBrackets at hb
      rw [hc1, hc2] at hb
      simp at hb
    · rw [hc1, hc2] at hboth
      simp at hboth

theorem normalize_server_url_eq (x : String) :
    normalize_server_url x =
      (if x = "" then .ok ""
      else
        match urlsplitE (normInput x) with
        | .error e => .error e
        | .ok r =>
          .ok ⟨urlunsplit (if r.scheme = [] then "https".data else r.scheme)
                (if r.netloc = [] then "smithery.ai".data else r.netloc)
                (rstripSlash r.path) [] []⟩) := rfl

theorem normalize_error_msgs (x : String) (e : String)
    (h : normalize_server_url x = .error e) :
    e = "Invalid IPv6 URL" ∨ e = "invalid bracketed host (approximated)" ∨
      e = "netloc rejected by NFKC check (approximated)" := by
  rw [normalize_server_url_eq] at h
  by_cases hx : x = ""
  · rw [if_pos hx] at h
    exact Except.noConfusion h
  · rw [if_neg hx] at h
    rcases hsp : urlsplitE (normInput x) with e2 | r
    · rw [hsp] at h
      injection h with h2
      rw [← h2]
      exact urlsplitE_error_msgs _ e2 hsp
    · rw [hsp] at h
      exact Except.noConfusion h

theorem normalize_ok_of_ascii_no_brackets (x : String)
    (ha : ∀ c ∈ x.data, pyIsAscii c = true) (h1 : '[' ∉ x.data) (h2 : ']' ∉ x.data) :
    ∃ y, normalize_server_url x = .ok y := by
  by_cases hx : x = ""
  · exact ⟨"", by rw [normalize_server_url_eq, if_pos hx]⟩
  · have hbase : ∀ d ∈ BASE_URL.data, pyIsAscii d = true := by decide
    have hA : ∀ c ∈ normInput x, pyIsAscii c = true := by
      unfold normInput
      split
      · intro c hc
        rcases List.mem_append.mp hc with hb | hs2
        · exact hbase c hb
        · exact ha c (pyStripL_subset _ hs2)
      · intro c hc
        exact ha c (pyStripL_subset _ hc)
    have hB1 : '[' ∉ normInput x := by
      unfold normInput
      split
      · intro hm
        rcases List.mem_append.mp hm with hb | hs2
        · revert hb
          decide
        · exact h1 (pyStripL_subset _ hs2)
      · intro hm
        exact h1 (pyStripL_subset _ hm)
    have hB2 : ']' ∉ normInput x := by
      unfold normInput
      split
      · intro hm
        rcases List.mem_append.mp hm with hb | hs2
        · revert hb
          decide
        · exact h2 (pyStripL_subset _ hs2)
      · intro hm
        exact h2 (pyStripL_subset _ hm)
    obtain ⟨r, hr⟩ := urlsplitE_ok_of_clean (normInput x) hA hB1 hB2
    rw [normalize_server_url_eq, if_neg hx, hr]
    exact ⟨_, rfl⟩

theorem dictInsert_mem (k : String) (v : PInfo) (d : List (String × PInfo)) :
    ∀ kv ∈ dictInsert k v d, kv = (k, v) ∨ kv ∈ d := by
  intro kv hm
  unfold dictInsert at hm
  by_cases h : d.any fun kv => kv.1 = k
  · rw [if_pos h] at hm
    obtain ⟨p, hp, he⟩ := List.mem_map.mp hm
    by_cases hk : p.1 = k
    · left; rw [← he]; simp [hk]
    · right; rw [← he]; simp only [hk, if_false]; exact hp
  · rw [if_neg h] at hm
    rcases List.mem_append.mp hm with h1 | h2
    · right; exact h1
    · left; simpa using h2

theorem dictInsert_key_self (k : String) (v : PInfo) (d : List (String × PInfo)) :
    ∃ kv ∈ dictInsert k v d, kv.1 = k := by
  unfold dictInsert
  by_cases h : d.any fun kv => kv.1 = k
  · rw [if_pos h]
    obtain ⟨p, hp, hk⟩ := List.any_eq_true.mp h
    refine ⟨(k, v), ?_, rfl⟩
    refine List.mem_map.mpr ⟨p, hp, ?_⟩
    simp only [of_decide_eq_true hk, if_true]
  · rw [if_neg h]
    exact ⟨(k, v), by simp, rfl⟩

theorem dictInsert_key_mono (k : String) (v : PInfo) (d : List (String × PInfo))
    (n : String) (h : ∃ kv ∈ d, kv.1 = n) : ∃ kv ∈ dictInsert k v d, kv.1 = n := by
  obtain ⟨kv, hm, hk⟩ := h
  unfold dictInsert
  by_cases hany : d.any fun kv => kv.1 = k
  · rw [if_pos hany]
    by_cases he : kv.1 = k
    · refine ⟨(k, v), List.mem_map.mpr ⟨kv, hm, by simp [he]⟩, ?_⟩
      rw [← hk, ← he]
    · exact ⟨kv, List.mem_map.mpr ⟨kv, hm, by simp [he]⟩, hk⟩
  · rw [if_neg hany]
    exact ⟨kv, List.mem_append.mpr (Or.inl hm), hk⟩

theorem finalizePending_inv (st : PState) (h : ParamInv st) :
    ParamInv (finalizePending st) := by
  obtain ⟨h1, h2, h3⟩ := h
  unfold finalizePending
  rcases hc : st.current_param with _ | cur
  · exact ⟨h1, h2, h3⟩
  rcases ht : st.param_type with _ | ty
  · exact ⟨h1, h2, h3⟩
  have hty : ty ∈ typeTokens := h3 ty ht
  refine ⟨?_, ?_, ?_⟩
  · intro kv hm
    rcases dictInsert_mem _ _ _ kv hm with he | hold
    · rw [he]
      exact hty
    · exact h1 kv hold
  · intro n hn
    by_cases hreq : containsSeq requiredMarker cur
    · simp only [hreq, if_true, List.mem_append, List.mem_singleton] at hn
      rcases hn with hn | rfl
      · exact dictInsert_key_mono _ _ _ _ (h2 n hn)
      · exact dictInsert_key_self _ _ _
    · simp only [hreq, if_false] at hn
      exact dictInsert_key_mono _ _ _ _ (h2 n hn)
  · intro t htt
    exact h3 t (by rw [← htt, ht])

theorem paramStepStripped_inv (st : PState) (line : List Char) (h : ParamInv st) :
    ParamInv (paramStepStripped st line) := by
  obtain ⟨h1, h2, h3⟩ := h
  unfold paramStepStripped
  split
  · exact ⟨h1, h2, h3⟩
  split
  · exact ⟨h1, h2, h3⟩
  split
  · exact ⟨h1, h2, h3⟩
  split
  · next hcond =>
    split
    · refine ⟨h1, h2, ?_⟩
      intro t htt
      obtain rfl : line = t := by simpa using htt
      simpa using hcond
    · exact ⟨h1, h2, h3⟩
  split
  · have hf := finalizePending_inv st ⟨h1, h2, h3⟩
    refine ⟨hf.1, hf.2.1, ?_⟩
    intro t htt
    simp at htt
  split
  · exact ⟨h1, h2, h3⟩
  · exact ⟨h1, h2, h3⟩

theorem paramStep_inv (st : PState) (rawLine : List Char) (h : ParamInv st) :
    ParamInv (paramStep st rawLine) := by
  unfold paramStep
  split
  · exact h
  · exact paramStepStripped_inv st (pyStripL rawLine) h

theorem alpha_facts (c : Char) (h : asciiAlpha c = true) :
    pyIsSpace c = false ∧ ¬ (c.toNat ≤ 0x20) ∧ c ≠ '/' ∧
      (!(c = '\t' || c = '\r' || c = '\n')) = true := by
  simp only [asciiAlpha, asciiUpper, asciiLower, Bool.or_eq_true, Bool.and_eq_true,
    decide_eq_true_eq] at h
  refine ⟨?_, ?_, ?_, ?_⟩
  · rw [← Bool.not_eq_true]
    simp only [pyIsSpace, Bool.or_eq_true, Bool.and_eq_true, decide_eq_true_eq]
    omega
  · omega
  · rintro rfl
    exact absurd h (by decide)
  · simp only [Bool.not_eq_true', Bool.or_eq_false_iff, decide_eq_false_iff_not]
    refine ⟨⟨?_, ?_⟩, ?_⟩ <;> (rintro rfl; exact absurd h (by decide))

theorem schemeChar_toNat (c : Char) (h : isSchemeChar c = true) :
    (65 ≤ c.toNat ∧ c.toNat ≤ 90) ∨ (97 ≤ c.toNat ∧ c.toNat ≤ 122) ∨
      (48 ≤ c.toNat ∧ c.toNat ≤ 57) ∨ c.toNat = 43 ∨ c.toNat = 45 ∨ c.toNat = 46 := by
  simp only [isSchemeChar, asciiAlpha, asciiUpper, asciiLower, Bool.or_eq_true,
    Bool.and_eq_true, decide_eq_true_eq] at h
  omega

theorem schemeChar_facts (c : Char) (h : isSchemeChar c = true) :
    c ≠ ':' ∧ pyIsSpace c = false ∧ ¬ (c.toNat ≤ 0x20) ∧
      (!(c = '\t' || c = '\r' || c = '\n')) = true := by
  have hb := schemeChar_toNat c h
  refine ⟨?_, ?_, ?_, ?_⟩
  · rintro rfl
    exact absurd h (by decide)
  · rw [← Bool.not_eq_true]
    simp only [pyIsSpace, Bool.or_eq_true, Bool.and_eq_true, decide_eq_true_eq]
    omega
  · omega
  · simp only [Bool.not_eq_true', Bool.or_eq_false_iff, decide_eq_false_iff_not]
    refine ⟨⟨?_, ?_⟩, ?_⟩ <;> (rintro rfl; exact absurd h (by decide))

theorem pyLower_toNat (c : Char) :
    (pyLower c).toNat = if 65 ≤ c.toNat ∧ c.toNat ≤ 90 then c.toNat + 32 else c.toNat := by
  unfold pyLower
  by_cases h : 65 ≤ c.toNat ∧ c.toNat ≤ 90
  · rw [if_pos (by simp only [Bool.and_eq_true, decide_eq_true_eq]; exact h), if_pos h]
    unfold Char.ofNat
    rw [dif_pos]
    · rfl
    · constructor
      omega
  · rw [if_neg (by simp only [Bool.and_eq_true, decide_eq_true_eq]; exact h), if_neg h]

theorem pyLower_eq_self_of_not_upper (c : Char) (h : ¬ (65 ≤ c.toNat ∧ c.toNat ≤ 90)) :
    pyLower c = c := by
  unfold pyLower
  rw [if_neg (by simp only [Bool.and_eq_true, decide_eq_true_eq]; exact h)]

theorem pyLower_fix (c : Char) : pyLower (pyLower c) = pyLower c := by
  by_cases h : 65 ≤ c.toNat ∧ c.toNat ≤ 90
  · have h1 : (pyLower c).toNat = c.toNat + 32 := by rw [pyLower_toNat, if_pos h]
    exact pyLower_eq_self_of_not_upper (pyLower c) (by omega)
  · have he : pyLower c = c := pyLower_eq_self_of_not_upper c h
    rw [he, he]

theorem pyLower_schemeChar (c : Char) (h : isSchemeChar c = true) :
    isSchemeChar (pyLower c) = true := by
  have hb := schemeChar_toNat c h
  simp only [isSchemeChar, asciiAlpha, asciiUpper, asciiLower, Bool.or_eq_true,
    Bool.and_eq_true, decide_eq_true_eq, pyLower_toNat]
  split
  · omega
  · omega

theorem pyLower_alpha (c : Char) (h : asciiAlpha c = true) :
    asciiAlpha (pyLower c) = true := by
  simp only [asciiAlpha, asciiUpper, asciiLower, Bool.or_eq_true, Bool.and_eq_true,
    decide_eq_true_eq] at h
  simp only [asciiAlpha, asciiUpper, asciiLower, Bool.or_eq_true, Bool.and_eq_true,
    decide_eq_true_eq, pyLower_toNat]
  split
  · omega
  · omega

theorem map_fix_eq_self (f : Char → Char) (l : List Char) (h : ∀ c ∈ l, f c = c) :
    l.map f = l := by
  induction l with
  | nil => rfl
  | cons a t ih =>
    rw [List.map_cons, h a (by simp), ih fun c hc => h c (by simp [hc])]

theorem head?_append_left (l₁ l₂ : List Char) (h : l₁ ≠ []) :
    (l₁ ++ l₂).head? = l₁.head? := by
  cases l₁ with
  | nil => exact absurd rfl h
  | cons a t => rfl

theorem getLast?_cons_of_ne_nil (a : Char) (l : List Char) (h : l ≠ []) :
    (a :: l).getLast? = l.getLast? := by
  cases l with
  | nil => exact absurd rfl h
  | cons b t => rw [List.getLast?_cons_cons]

theorem splitScheme_fst_props (url : List Char) :
    (splitScheme url).1 = [] ∨
      ((splitScheme url).1 ≠ [] ∧
       (∃ c, (splitScheme url).1.head? = some c ∧ asciiAlpha c = true) ∧
       ∀ c ∈ (splitScheme url).1, isSchemeChar c = true ∧ pyLower c = c) := by
  unfold splitScheme
  rcases hsf : splitFirst ':' url with ⟨pre, post⟩
  cases post with
  | none => left; rfl
  | some p =>
    by_cases hs : schemeOk pre
    · right
      dsimp only
      rw [if_pos hs]
      cases pre with
      | nil => exact absurd hs (by decide)
      | cons a t =>
        simp only [schemeOk, Bool.and_eq_true, List.all_eq_true, List.head?_cons] at hs
        obtain ⟨⟨_, ha⟩, hall⟩ := hs
        refine ⟨by simp, ⟨pyLower a, by simp, pyLower_alpha a ha⟩, ?_⟩
        intro c hc
        obtain ⟨c0, hc0, rfl⟩ := List.mem_map.mp hc
        exact ⟨pyLower_schemeChar c0 (hall c0 hc0), pyLower_fix c0⟩
    · left
      dsimp only
      rw [if_neg hs]

theorem splitNetloc_fst_chars (url : List Char) :
    ∀ c ∈ (splitNetloc url).1, notDelim c = true := by
  unfold splitNetloc
  split
  · intro c hc
    exact List.mem_takeWhile_imp hc
  · intro c hc
    simp at hc

theorem splitNetloc_snd_subset (url : List Char) : (splitNetloc url).2 ⊆ url := by
  unfold splitNetloc
  split
  · intro c hc
    have := (List.dropWhile_sublist _).subset hc
    simp [this]
  · exact fun c hc => hc

theorem splitTail_fst_not_mem (c : Char) (l : List Char) : c ∉ (splitTail c l).1 := by
  unfold splitTail
  rcases hsf : splitFirst c l with ⟨pre, post⟩
  cases post with
  | none =>
    dsimp only
    intro hc
    obtain ⟨hp, hnm⟩ := splitFirst_none c l pre hsf
    rw [hp] at hc
    exact hnm hc
  | some p =>
    dsimp only
    exact (splitFirst_some c l pre p hsf).2

theorem splitTail_fst_subset (c : Char) (l : List Char) : (splitTail c l).1 ⊆ l := by
  unfold splitTail
  rcases hsf : splitFirst c l with ⟨pre, post⟩
  cases post with
  | none =>
    dsimp only
    obtain ⟨hp, _⟩ := splitFirst_none c l pre hsf
    rw [hp]
    exact fun a ha => ha
  | some p =>
    dsimp only
    obtain ⟨hd, _⟩ := splitFirst_some c l pre p hsf
    intro a ha
    rw [hd]
    simp [ha]

theorem mem_removeUnsafeChars_prop (l : List Char) (c : Char)
    (h : c ∈ removeUnsafeChars l) : (!(c = '\t' || c = '\r' || c = '\n')) = true := by
  unfold removeUnsafeChars at h
  exact (List.mem_filter.mp h).2

theorem urlsplitE_ok_dest (l : List Char) (r : USplit) (h : urlsplitE l = .ok r) :
    badBrackets (splitNetloc (splitScheme (removeUnsafeChars (lstripControl l))).2).1 = false ∧
    ((splitNetloc (splitScheme (removeUnsafeChars (lstripControl l))).2).1.contains '[' &&
      (splitNetloc (splitScheme (removeUnsafeChars (lstripControl l))).2).1.contains ']')
      = false ∧
    (splitNetloc (splitScheme (removeUnsafeChars (lstripControl l))).2).1.all pyIsAscii
      = true ∧
    r.scheme = (splitScheme (removeUnsafeChars (lstripControl l))).1 ∧
    r.netloc = (splitNetloc (splitScheme (removeUnsafeChars (lstripControl l))).2).1 ∧
    r.path =
      (splitTail '?'
        (splitTail '#'
          (splitNetloc (splitScheme (removeUnsafeChars (lstripControl l))).2).2).1).1 := by
  rw [urlsplitE_eq] at h
  by_cases hb :
      badBrackets (splitNetloc (splitScheme (removeUnsafeChars (lstripControl l))).2).1
  · rw [if_pos hb] at h
    exact Except.noConfusion h
  rw [if_neg hb] at h
  by_cases hboth :
      ((splitNetloc (splitScheme (removeUnsafeChars (lstripControl l))).2).1.contains '[' &&
        (splitNetloc (splitScheme (removeUnsafeChars (lstripControl l))).2).1.contains ']')
        = true
  · rw [if_pos hboth] at h
    exact Except.noConfusion h
  rw [if_neg hboth] at h
  by_cases hasc :
      (!((splitNetloc (splitScheme (removeUnsafeChars (lstripControl l))).2).1.all pyIsAscii))
        = true
  · rw [if_pos hasc] at h
    exact Except.noConfusion h
  rw [if_neg hasc] at h
  have hall : (splitNetloc (splitScheme (removeUnsafeChars (lstripControl l))).2).1.all pyIsAscii
      = true := by
    rcases hv : (splitNetloc (splitScheme (removeUnsafeChars (lstripControl l))).2).1.all pyIsAscii
    · exact absurd (by simp [hv]) hasc
    · rfl
  have hr := (Except.ok.injEq _ _ ▸ h :
    (⟨(splitScheme (removeUnsafeChars (lstripControl l))).1,
      (splitNetloc (splitScheme (removeUnsafeChars (lstripControl l))).2).1,
      (splitTail '?'
        (splitTail '#'
          (splitNetloc (splitScheme (removeUnsafeChars (lstripControl l))).2).2).1).1,
      (splitTail '?'
        (splitTail '#'
          (splitNetloc (splitScheme (removeUnsafeChars (lstripControl l))).2).2).1).2,
      (splitTail '#'
        (splitNetloc (splitScheme (removeUnsafeChars (lstripControl l))).2).2).2⟩ : USplit) = r)
  refine ⟨by simpa using hb, by simpa using hboth, hall, ?_, ?_, ?_⟩ <;> rw [← hr]

theorem urlunsplit_form (scheme netloc path : List Char) (hn : netloc ≠ [])
    (hs : scheme ≠ []) :
    urlunsplit scheme netloc path [] [] =
      mkUrl scheme netloc
        (if path ≠ [] ∧ path.head? ≠ some '/' then '/' :: path else path) := by
  unfold urlunsplit addFragment addQuery addScheme addNetloc mkUrl
  rw [if_neg (by simp), if_neg (by simp), if_pos (Or.inl hn), if_pos hs]

theorem normalize_ok_shape (x y : String) (hx : x ≠ "")
    (h : normalize_server_url x = .ok y) :
    ∃ s n p, y.data = mkUrl s n p ∧ GoodParts s n p := by
  rw [normalize_server_url_eq, if_neg hx] at h
  rcases hsplit : urlsplitE (normInput x) with e | r
  · rw [hsplit] at h
    exact Except.noConfusion h
  rw [hsplit] at h
  injection h with h'
  obtain ⟨hb, hboth, hascii, hsc, hnl, hpa⟩ := urlsplitE_ok_dest (normInput x) r hsplit
  have hsne : (if r.scheme = [] then "https".data else r.scheme) ≠ [] := by
    split
    · decide
    · assumption
  have hnne : (if r.netloc = [] then "smithery.ai".data else r.netloc) ≠ [] := by
    split
    · decide
    · assumption
  have hsub : rstripSlash r.path ⊆ removeUnsafeChars (lstripControl (normInput x)) := by
    intro c hc
    have h1 := rstripSlash_subset _ hc
    rw [hpa] at h1
    have h2 := splitTail_fst_subset '?' _ h1
    have h3 := splitTail_fst_subset '#' _ h2
    have h4 := splitNetloc_snd_subset _ h3
    exact splitScheme_snd_subset _ h4
  have hq : ∀ c ∈ rstripSlash r.path, c ≠ '?' := by
    intro c hc hcq
    subst hcq
    have h1 := rstripSlash_subset _ hc
    rw [hpa] at h1
    exact splitTail_fst_not_mem '?' _ h1
  have hh : ∀ c ∈ rstripSlash r.path, c ≠ '#' := by
    intro c hc hch
    subst hch
    have h1 := rstripSlash_subset _ hc
    rw [hpa] at h1
    have h2 := splitTail_fst_subset '?' _ h1
    exact splitTail_fst_not_mem '#' _ h2
  refine ⟨if r.scheme = [] then "https".data else r.scheme,
          if r.netloc = [] then "smithery.ai".data else r.netloc,
          if rstripSlash r.path ≠ [] ∧ (rstripSlash r.path).head? ≠ some '/' then
            '/' :: rstripSlash r.path
          else rstripSlash r.path,
          ?_, hsne, ?_, ?_, hnne, ?_, ?_, ?_, ?_, ?_, ?_⟩
  · rw [← h']
    exact urlunsplit_form _ _ _ hnne hsne
  · by_cases he : r.scheme = []
    · rw [if_pos he]
      exact ⟨'h', rfl, by decide⟩
    · rw [if_neg he]
      rcases splitScheme_fst_props (removeUnsafeChars (lstripControl (normInput x))) with
        hnil | ⟨_, hhead, _⟩
      · rw [hsc] at he
        exact absurd hnil he
      · rw [hsc]
        exact hhead
  · by_cases he : r.scheme = []
    · rw [if_pos he]
      decide
    · rw [if_neg he]
      rcases splitScheme_fst_props (removeUnsafeChars (lstripControl (normInput x))) with
        hnil | ⟨_, _, hchars⟩
      · rw [hsc] at he
        exact absurd hnil he
      · rw [hsc]
        exact hchars
  · by_cases he : r.netloc = []
    · rw [if_pos he]
      decide
    · rw [if_neg he, hnl]
      intro c hc
      refine ⟨splitNetloc_fst_chars _ c hc, ?_⟩
      have h1 := splitNetloc_fst_subset _ hc
      have h2 := splitScheme_snd_subset _ h1
      exact mem_removeUnsafeChars_prop _ c h2
  · by_cases he : r.netloc = []
    · rw [if_pos he]
      decide
    · rw [if_neg he, hnl]
      exact no_brackets_of_checks _ hb hboth
  · by_cases he : r.netloc = []
    · rw [if_pos he]
      decide
    · rw [if_neg he, hnl]
      exact fun c hc => List.all_eq_true.mp hascii c hc
  · by_cases hcond : rstripSlash r.path ≠ [] ∧ (rstripSlash r.path).head? ≠ some '/'
    · rw [if_pos hcond]
      right
      rfl
    · rw [if_neg hcond]
      push_neg at hcond
      by_cases hnil : rstripSlash r.path = []
      · left
        exact hnil
      · right
        exact hcond hnil
  · intro c hc
    by_cases hcond : rstripSlash r.path ≠ [] ∧ (rstripSlash r.path).head? ≠ some '/'
    · rw [if_pos hcond] at hc
      rcases List.mem_cons.mp hc with rfl | hc2
      · exact ⟨by decide, by decide, by decide⟩
      · exact ⟨hq c hc2, hh c hc2, mem_removeUnsafeChars_prop _ c (hsub hc2)⟩
    · rw [if_neg hcond] at hc
      exact ⟨hq c hc, hh c hc, mem_removeUnsafeChars_prop _ c (hsub hc)⟩
  · intro c hc
    by_cases hcond : rstripSlash r.path ≠ [] ∧ (rstripSlash r.path).head? ≠ some '/'
    · rw [if_pos hcond] at hc
      rw [getLast?_cons_of_ne_nil '/' _ hcond.1] at hc
      exact rstripSlash_getLast _ c hc
    · rw [if_neg hcond] at hc
      exact rstripSlash_getLast _ c hc

theorem prefixOf_slash_head (l : List Char) (b : Char) (rest : List Char)
    (h : ('/' :: l).isPrefixOf (b :: rest) = true) : b = '/' := by
  simp only [List.isPrefixOf, Bool.and_eq_true, beq_iff_eq] at h
  exact h.1.symm

theorem normalize_fixpoint (s n p : List Char) (g : GoodParts s n p)
    (hlast : ∀ c, (mkUrl s n p).getLast? = some c → pyIsSpace c = false) :
    normalize_server_url ⟨mkUrl s n p⟩ = .ok ⟨mkUrl s n p⟩ := by
  obtain ⟨c0, hc0, hc0alpha⟩ := g.s_head
  have hhead : (mkUrl s n p).head? = some c0 := by
    unfold mkUrl
    rw [head?_append_left _ _ g.s_ne, hc0]
  have hne : (⟨mkUrl s n p⟩ : String) ≠ "" := by
    intro hcon
    have hnil : mkUrl s n p = [] := congrArg String.data hcon
    rw [hnil] at hhead
    exact Option.noConfusion hhead
  have hclean : ∀ c ∈ mkUrl s n p, (!(c = '\t' || c = '\r' || c = '\n')) = true := by
    intro c hc
    unfold mkUrl at hc
    rcases List.mem_append.mp hc with hcs | hcr
    · exact (schemeChar_facts c (g.s_chars c hcs).1).2.2.2
    · rcases List.mem_cons.mp hcr with rfl | hcr2
      · decide
      rcases List.mem_cons.mp hcr2 with rfl | hcr3
      · decide
      rcases List.mem_cons.mp hcr3 with rfl | hcr4
      · decide
      rcases List.mem_append.mp hcr4 with hcn | hcp
      · exact (g.n_chars c hcn).2
      · exact (g.p_chars c hcp).2.2
  have hstrip : pyStripL (mkUrl s n p) = mkUrl s n p := by
    apply pyStripL_eq_self
    · intro b hb
      rw [hhead] at hb
      have hbc : b = c0 := by simpa using hb.symm
      rw [hbc]
      exact (alpha_facts c0 hc0alpha).1
    · exact hlast
  have hnopref : ¬ (("/server/".data).isPrefixOf (mkUrl s n p) = true) := by
    intro hp
    have hp2 : ('/' :: "server/".data).isPrefixOf (mkUrl s n p) = true := hp
    rcases hmk : mkUrl s n p with _ | ⟨b, tl⟩
    · rw [hmk] at hhead
      exact Option.noConfusion hhead
    · rw [hmk] at hp2 hhead
      have hbc : b = c0 := by simpa using hhead
      have hbs : b = '/' := prefixOf_slash_head _ _ _ hp2
      rw [hbc] at hbs
      exact (alpha_facts c0 hc0alpha).2.2.1 hbs
  have hinput : normInput ⟨mkUrl s n p⟩ = mkUrl s n p := by
    unfold normInput
    have hdata : (⟨mkUrl s n p⟩ : String).data = mkUrl s n p := rfl
    rw [hdata, hstrip, if_neg hnopref]
  have hsplitfirst : splitFirst ':' (mkUrl s n p) = (s, some ('/' :: '/' :: (n ++ p))) := by
    unfold mkUrl
    apply splitFirst_append_cons
    intro hmem
    exact (schemeChar_facts ':' (g.s_chars ':' hmem).1).1 rfl
  have hschemeok : schemeOk s = true := by
    cases hs0 : s with
    | nil => exact absurd hs0 g.s_ne
    | cons a t =>
      rw [hs0] at hc0
      have hac : a = c0 := by simpa using hc0
      simp only [schemeOk, Bool.and_eq_true, List.all_eq_true, List.head?_cons]
      refine ⟨⟨by simp, by rw [hac]; exact hc0alpha⟩, ?_⟩
      intro c hc
      exact (g.s_chars c (by rw [hs0]; exact hc)).1
  have hmaps : s.map pyLower = s :=
    map_fix_eq_self pyLower s fun c hc => (g.s_chars c hc).2
  have hscheme : splitScheme (mkUrl s n p) = (s, '/' :: '/' :: (n ++ p)) := by
    unfold splitScheme
    rw [hsplitfirst]
    dsimp only
    rw [if_pos hschemeok, hmaps]
  have hphead : ∀ b, p.head? = some b → notDelim b = false := by
    intro b hb
    rcases g.p_head with hnl | hh
    · rw [hnl] at hb
      exact Option.noConfusion hb
    · rw [hh] at hb
      obtain rfl : b = '/' := by simpa using hb.symm
      decide
  have hnetloc : splitNetloc ('/' :: '/' :: (n ++ p)) = (n, p) := by
    have hred : splitNetloc ('/' :: '/' :: (n ++ p)) =
        ((n ++ p).takeWhile notDelim, (n ++ p).dropWhile notDelim) := rfl
    have htw := takeWhile_append_of_all notDelim n p
      (fun c hc => (g.n_chars c hc).1) hphead
    rw [hred, htw.1, htw.2]
  have hfrag : splitTail '#' p = (p, []) := by
    unfold splitTail
    rw [splitFirst_of_not_mem '#' p fun hm => (g.p_chars '#' hm).2.1 rfl]
  have hqry : splitTail '?' p = (p, []) := by
    unfold splitTail
    rw [splitFirst_of_not_mem '?' p fun hm => (g.p_chars '?' hm).1 rfl]
  have hlc : lstripControl (mkUrl s n p) = mkUrl s n p := by
    unfold lstripControl
    apply dropWhile_eq_self_of_head
    intro b hb
    rw [hhead] at hb
    have hbc : b = c0 := by simpa using hb.symm
    show decide (b.toNat ≤ 0x20) = false
    rw [hbc]
    simp only [decide_eq_false_iff_not]
    exact (alpha_facts c0 hc0alpha).2.1
  have hrm : removeUnsafeChars (mkUrl s n p) = mkUrl s n p := by
    unfold removeUnsafeChars
    exact List.filter_eq_self.mpr hclean
  have hsplitE : urlsplitE (mkUrl s n p) = .ok ⟨s, n, p, [], []⟩ := by
    rw [urlsplitE_eq, hlc, hrm, hscheme]
    dsimp only
    rw [hnetloc]
    dsimp only
    have hcna : n.all pyIsAscii = true := List.all_eq_true.mpr g.n_ascii
    rw [if_neg (by simp [badBrackets, g.n_nobr.1, g.n_nobr.2]), if_neg (by simp [g.n_nobr.1]),
      if_neg (by simp [hcna]), hfrag]
    dsimp only
    rw [hqry]
  have hcond : ¬ (p ≠ [] ∧ p.head? ≠ some '/') := by
    rcases g.p_head with hnl | hh
    · rintro ⟨hne2, _⟩
      exact hne2 hnl
    · rintro ⟨_, hne2⟩
      exact hne2 hh
  rw [normalize_server_url_eq, if_neg hne, hinput, hsplitE]
  dsimp only
  rw [if_neg g.s_ne, if_neg g.n_ne, rstripSlash_eq_self p g.p_last,
    urlunsplit_form s n p g.n_ne g.s_ne, if_neg hcond]

/-! ### Claim theorems -/

/-- Claim C1 (confirmed): the crawl-outcome classification of a record with
extracted tool count `t` and declared tool count `d` is `SUCCESS` iff
`t = d ∧ d > 0`, `PARTIAL` iff `t > 0 ∧ t ≠ d`, and `FAILED` otherwise; in
particular `(5,5) ↦ SUCCESS`, `(2,5) ↦ PARTIAL`, `(0,5) ↦ FAILED`,
`(0,0) ↦ FAILED`. -/
theorem classify_outcome_spec :
    (∀ (t : Nat) (d : Int),
      (classify t d = .SUCCESS ↔ (t : Int) = d ∧ 0 < d) ∧
      (classify t d = .PARTIAL ↔ 0 < t ∧ (t : Int) ≠ d) ∧
      (classify t d = .FAILED ↔ ¬((t : Int) = d ∧ 0 < d) ∧ ¬(0 < t ∧ (t : Int) ≠ d))) ∧
    classify 5 5 = .SUCCESS ∧ classify 2 5 = .PARTIAL ∧
    classify 0 5 = .FAILED ∧ classify 0 0 = .FAILED := by
  refine ⟨fun t d => ?_, by decide, by decide, by decide, by decide⟩
  unfold classify
  split_ifs with h1 h2 <;>
    refine ⟨?_, ?_, ?_⟩ <;> simp_all <;> omega

/-- Claim C3 (confirmed): on the text
`"paramA*required\nstring\nDoes X\n\nparamB\ninteger\nDoes Y\n"` scanned
from position 0, the parameter parser returns `paramA : string`, described
"Does X", and `paramB : integer`, described "Does Y", with required-names
list exactly `["paramA"]`. -/
theorem parse_parameters_roundtrip :
    parse_parameters_from_text "paramA*required\nstring\nDoes X\n\nparamB\ninteger\nDoes Y\n" 0 =
      ([("paramA", ⟨"string", "Does X"⟩), ("paramB", ⟨"integer", "Does Y"⟩)], ["paramA"]) := by
  decide

/-- Claim C7 (confirmed): for every input text and start position, every
entry of the returned parameter mapping carries one of the six primitive
type tokens (a pending parameter without an explicit type line is never
finalized), and every returned required name is a key of the mapping. -/
theorem parse_parameters_invariants :
    ∀ (text : String) (start_pos : Nat),
      (((parse_parameters_from_text text start_pos).1.all fun kv =>
          typeTokens.contains kv.2.type.data) = true) ∧
      (((parse_parameters_from_text text start_pos).2.all fun n =>
          (parse_parameters_from_text text start_pos).1.any fun kv => kv.1 = n) = true) := by
  intro text start_pos
  have hinit : ParamInv parseInitState := by
    refine ⟨?_, ?_, ?_⟩ <;> simp [parseInitState]
  have hfold : ∀ (lines : List (List Char)) (st : PState), ParamInv st →
      ParamInv (lines.foldl paramStep st) := by
    intro lines
    induction lines with
    | nil => intro st h; exact h
    | cons a t ih => intro st h; exact ih _ (paramStep_inv st a h)
  have hfin :
      ParamInv (finalizePending
        ((splitWhen (· = '\n') (text.data.drop start_pos)).foldl paramStep
          parseInitState)) :=
    finalizePending_inv _ (hfold _ _ hinit)
  obtain ⟨h1, h2, _⟩ := hfin
  constructor
  · rw [List.all_eq_true]
    intro kv hm
    have hmem := h1 kv hm
    simpa using hmem
  · rw [List.all_eq_true]
    intro n hn
    obtain ⟨kv, hkv, he⟩ := h2 n hn
    rw [List.any_eq_true]
    exact ⟨kv, hkv, by simp [he]⟩

theorem collectNormalized_go (urls : List String) :
    ∀ acc : Finset String, (∀ u ∈ urls, ∃ y, normalize_server_url u = .ok y) →
      List.foldlM
          (fun s u => (normalize_server_url u).map fun n => if n ≠ "" then insert n s else s)
          acc urls =
        .ok (List.foldl
          (fun s u =>
            match normalize_server_url u with
            | .ok n => if n ≠ "" then insert n s else s
            | .error _ => s)
          acc urls) := by
  induction urls with
  | nil => intro acc _; rfl
  | cons u t ih =>
    intro acc h
    obtain ⟨y, hy⟩ := h u (by simp)
    have step : List.foldlM
        (fun s u => (normalize_server_url u).map fun n => if n ≠ "" then insert n s else s)
        acc (u :: t) =
        List.foldlM
          (fun s u => (normalize_server_url u).map fun n => if n ≠ "" then insert n s else s)
          (if y ≠ "" then insert y acc else acc) t := by
      rw [List.foldlM_cons, hy]
      rfl
    rw [step, List.foldl_cons]
    have step2 :
        (match normalize_server_url u with
          | .ok n => if n ≠ "" then insert n acc else acc
          | .error _ => acc) = if y ≠ "" then insert y acc else acc := by
      rw [hy]
    rw [step2]
    exact ih _ fun v hv => h v (by simp [hv])

theorem collectNormalized_ok (urls : List String)
    (h : ∀ u ∈ urls, ∃ y, normalize_server_url u = .ok y) :
    collectNormalized urls = .ok (okNormSet urls) :=
  collectNormalized_go urls ∅ h

/-- Claim C2 (counterexample): the reconciliation diff is not a total set
difference over arbitrary URL sets — `diff(A,A)` should be `[]` for any
`A`, but with `A = {"//["}` the normalizer raises inside
`find_missing_servers`, which returns no list at all. -/
theorem find_missing_servers_raises_on_brackets :
    find_missing_servers ["//["] ["//["] = Except.error "Invalid IPv6 URL" := by
  decide

/-- Claim C2 (corrected): restricted to URL sets whose elements all
normalize without raising, `find_missing_servers` is the ascending-sorted
set difference of the normalized sets (empty normalizations discarded);
in particular `diff(A,A) = []` and `diff(∅,B) = sorted (normalized B)`. -/
theorem find_missing_servers_set_difference :
    (∀ A B : List String,
      (∀ u ∈ A, ∃ y, normalize_server_url u = .ok y) →
      (∀ u ∈ B, ∃ y, normalize_server_url u = .ok y) →
      find_missing_servers A B = .ok (sortedUrls (okNormSet B \ okNormSet A))) ∧
    (∀ A : List String, (∀ u ∈ A, ∃ y, normalize_server_url u = .ok y) →
      find_missing_servers A A = .ok []) ∧
    (∀ B : List String, (∀ u ∈ B, ∃ y, normalize_server_url u = .ok y) →
      find_missing_servers [] B = .ok (sortedUrls (okNormSet B))) := by
  have main : ∀ A B : List String,
      (∀ u ∈ A, ∃ y, normalize_server_url u = .ok y) →
      (∀ u ∈ B, ∃ y, normalize_server_url u = .ok y) →
      find_missing_servers A B = .ok (sortedUrls (okNormSet B \ okNormSet A)) := by
    intro A B hA hB
    unfold find_missing_servers
    rw [collectNormalized_ok A hA, collectNormalized_ok B hB]
    rfl
  refine ⟨main, ?_, ?_⟩
  · intro A hA
    rw [main A A hA hA]
    have : sortedUrls (okNormSet A \ okNormSet A) = [] := by
      simp [sortedUrls]
    rw [this]
  · intro B hB
    rw [main [] B (by simp) hB]
    have : okNormSet B \ okNormSet [] = okNormSet B := by
      have he : okNormSet [] = (∅ : Finset String) := rfl
      rw [he]
      simp
    rw [this]

/-- Claim C2 (witness). -/
theorem find_missing_servers_set_difference_witness :
    find_missing_servers ["https://smithery.ai/server/a"] ["/server/b", "/server/a"] =
      .ok (sortedUrls
        (okNormSet ["/server/b", "/server/a"] \ okNormSet ["https://smithery.ai/server/a"])) :=
  find_missing_servers_set_difference.1 ["https://smithery.ai/server/a"]
    ["/server/b", "/server/a"]
    (by
      intro u hu
      simp only [List.mem_singleton] at hu
      subst hu
      exact ⟨_, rfl⟩)
    (by
      intro u hu
      simp at hu
      rcases hu with rfl | rfl
      · exact ⟨_, rfl⟩
      · exact ⟨_, rfl⟩)

theorem crawlSeq_succ (f : Nat → Finset String) (max_pages : Option Nat)
    (page : Nat) (acc : Finset String) (fuel : Nat) :
    crawlSeq f max_pages page acc (fuel + 1) =
      if f page = ∅ then acc
      else
        if (match max_pages with | some m => m ≠ 0 && page + 1 > m | none => false) = true then
          acc ∪ f page
        else if page + 1 > 100 then acc ∪ f page
        else crawlSeq f max_pages (page + 1) (acc ∪ f page) fuel := rfl

theorem fetch_current_eq_fallback (f : Nat → Finset String × Option Nat)
    (h1 : (f 1).2 = none) :
    fetch_current_server_urls f none =
      sortedUrls (crawlSeq (fun n => (f n).1) none 2 (f 1).1 99) := by
  unfold fetch_current_server_urls
  rw [h1]
  rfl

/-- Claim C8 (confirmed): with no total-page indicator on page 1 and no
`max_pages`, discovery falls back to sequential crawling from page 2 and
stops at the first page with zero URLs (the 100-page safety limit bounds
the loop); with exactly 3 non-empty pages followed by an empty page it
returns the sorted union of exactly those 3 pages of URLs. -/
theorem discovery_fallback_three_pages (f : Nat → Finset String × Option Nat)
    (h1 : (f 1).2 = none) (h2 : (f 2).1 ≠ ∅) (h3 : (f 3).1 ≠ ∅) (h4 : (f 4).1 = ∅) :
    fetch_current_server_urls f none = sortedUrls ((f 1).1 ∪ (f 2).1 ∪ (f 3).1) := by
  rw [fetch_current_eq_fallback f h1]
  have e99 : (99 : Nat) = 98 + 1 := rfl
  have e98 : (98 : Nat) = 97 + 1 := rfl
  have e97 : (97 : Nat) = 96 + 1 := rfl
  have h2w : ¬((fun n => (f n).1) 2 = ∅) := by simpa using h2
  have h3w : ¬((fun n => (f n).1) 3 = ∅) := by simpa using h3
  have h4w : (fun n => (f n).1) 4 = ∅ := by simpa using h4
  rw [e99, crawlSeq_succ, if_neg h2w, if_neg (by decide), if_neg (by decide)]
  rw [e98, crawlSeq_succ]
  have h3x : ¬((fun n => (f n).1) (2 + 1) = ∅) := by simpa using h3
  rw [if_neg h3x, if_neg (by decide), if_neg (by decide)]
  rw [e97, crawlSeq_succ]
  have h4x : (fun n => (f n).1) (2 + 1 + 1) = ∅ := by simpa using h4
  rw [if_pos h4x]

/-- Claim C8 (witness). -/
theorem discovery_fallback_three_pages_witness :
    fetch_current_server_urls threePageSource none =
      sortedUrls ((threePageSource 1).1 ∪ (threePageSource 2).1 ∪ (threePageSource 3).1) :=
  discovery_fallback_three_pages threePageSource rfl (by decide) (by decide) (by decide)

/-- Claim C4 (counterexample): URL normalization is not idempotent for
every string: on `"a ?"` the query split leaves a path ending in a space,
so the first pass returns `"https://smithery.ai/a "` while the second
pass strips that trailing space and returns `"https://smithery.ai/a"`. -/
theorem normalize_not_idempotent :
    (normalize_server_url "a ?").bind normalize_server_url ≠
      normalize_server_url "a ?" := by
  decide

/-- Claim C4 (corrected): normalization is idempotent on every output
that does not end in a whitespace character (outputs end in whitespace
only when a query, fragment or trailing slash cut the kept part short
just after one); and the relative form `"/server/foo/"` and the absolute
form `"https://smithery.ai/server/foo?x=1"` normalize to the same
ResourceURL. -/
theorem normalize_idempotent_no_trailing_ws :
    (∀ x y : String, normalize_server_url x = .ok y →
        (∀ c, y.data.getLast? = some c → pyIsSpace c = false) →
        normalize_server_url y = .ok y) ∧
    normalize_server_url "/server/foo/" =
      normalize_server_url "https://smithery.ai/server/foo?x=1" := by
  constructor
  · intro x y hxy hws
    by_cases hx : x = ""
    · subst hx
      have h0 : normalize_server_url "" = .ok "" := rfl
      rw [h0] at hxy
      have hy : "" = y := by simpa using hxy
      rw [← hy]
      exact h0
    · obtain ⟨s, n, p, hy, g⟩ := normalize_ok_shape x y hx hxy
      have hfix := normalize_fixpoint s n p g (by rw [← hy]; exact hws)
      have hye : (⟨mkUrl s n p⟩ : String) = y := by
        rw [← hy]
      rwa [hye] at hfix
  · decide

/-- Claim C4 (witness). -/
theorem normalize_idempotent_no_trailing_ws_witness :
    normalize_server_url "https://smithery.ai/server/a" =
      .ok "https://smithery.ai/server/a" :=
  normalize_idempotent_no_trailing_ws.1 "/server/a" "https://smithery.ai/server/a"
    (by decide)
    (by
      intro c hc
      have h1 : ("https://smithery.ai/server/a".data).getLast? = some 'a' := by decide
      rw [h1] at hc
      have hce : c = 'a' := by simpa using hc.symm
      rw [hce]
      decide)

/-- Claim C5 (counterexample): `normalize_server_url` is not total — on the
input `"https://["` CPython `urlsplit` raises
`ValueError("Invalid IPv6 URL")`, which propagates out of the normalizer. -/
theorem normalize_raises_invalid_ipv6 :
    normalize_server_url "https://[" = Except.error "Invalid IPv6 URL" := by
  decide

/-- Claim C5 (corrected): the normalizer is a pure deterministic function
that degrades malformed input to a best-effort normalization, but it is
not total: CPython `urlsplit` validates the parsed authority and can raise
`ValueError` — an unmatched square bracket raises `"Invalid IPv6 URL"`,
a bracketed host can fail the CPython ≥ 3.11 `_check_bracketed_host`
validation, and a non-ASCII authority can fail the CPython ≥ 3.7.3
`_checknetloc` NFKC validation (the model raises conservatively on the
latter two). Every raise is one of these three authority validations, and
the normalizer always returns a value on all-ASCII input containing no
square bracket. -/
theorem normalize_total_on_ascii_no_brackets :
    (∀ (x : String) (e : String), normalize_server_url x = .error e →
        e = "Invalid IPv6 URL" ∨ e = "invalid bracketed host (approximated)" ∨
          e = "netloc rejected by NFKC check (approximated)") ∧
    (∀ x : String, (∀ c ∈ x.data, pyIsAscii c = true) → '[' ∉ x.data → ']' ∉ x.data →
        ∃ y, normalize_server_url x = .ok y) :=
  ⟨normalize_error_msgs, normalize_ok_of_ascii_no_brackets⟩

/-- Claim C5 (witness). -/
theorem normalize_total_on_ascii_no_brackets_witness :
    ∃ y, normalize_server_url "https://smithery.ai/server/abc" = .ok y :=
  normalize_total_on_ascii_no_brackets.2 "https://smithery.ai/server/abc"
    (by decide) (by decide) (by decide)

/-- Claim C6 (counterexample): for empty input the normalizer returns
exactly the empty string (not a value distinct from it). -/
theorem normalize_empty_returns_empty_string :
    normalize_server_url "" = Except.ok "" := by decide

/-- Claim C6 (corrected): empty input yields the empty string, and callers
treat that empty string as the "no result" sentinel — a URL normalizing to
`""` is filtered out, so it contributes nothing to the reconciliation
sets. -/
theorem normalize_empty_is_filtered_sentinel :
    normalize_server_url "" = Except.ok "" ∧
    find_missing_servers [] [""] = Except.ok [] := by
  constructor
  · decide
  · have h : find_missing_servers [] [""] =
        Except.ok (sortedUrls ((∅ : Finset String) \ (∅ : Finset String))) := rfl
    rw [h]
    congr 1
    simp [sortedUrls]

theorem replay_jsonl_go (parse : String → Option JObj) (lines : List String) :
    ∀ acc : List JObj,
      List.foldl
        (fun acc l =>
          if pyStripS l ≠ "" then
            match parse (pyStripS l) with
            | some r => acc ++ [r]
            | none => acc
          else acc)
        acc lines = acc ++ ((lines.map pyStripS).filter (· ≠ "")).filterMap parse := by
  induction lines with
  | nil => intro acc; simp
  | cons l t ih =>
    intro acc
    simp only [List.foldl_cons, List.map_cons]
    by_cases h : pyStripS l ≠ ""
    · rw [if_pos h, List.filter_cons_of_pos (by simpa using h), List.filterMap_cons]
      rcases hp : parse (pyStripS l) with _ | r
      · exact ih acc
      · rw [ih]
        simp
    · rw [if_neg h, List.filter_cons_of_neg (by simpa using h)]
      exact ih acc

theorem replay_jsonl_eq (parse : String → Option JObj) (lines : List String) :
    replay_jsonl parse lines = ((lines.map pyStripS).filter (· ≠ "")).filterMap parse := by
  unfold replay_jsonl
  simpa using replay_jsonl_go parse lines []

theorem normalize_server_url_field (r : JObj) :
    jGet (normalize_server r) "server_url" = some (jGetD r "server_url" (.str "")) := rfl

theorem contains_iff_mem_opt (l : List (Option JValue)) (x : Option JValue) :
    l.contains x = true ↔ x ∈ l := by
  simp [List.contains_iff_exists_mem_beq, beq_iff_eq]

theorem merge_with_jsonl_urls_nodup (memory replayed : List JObj)
    (hm : (urlsOf memory).Nodup) (hr : (urlsOf replayed).Nodup) :
    (urlsOf (merge_with_jsonl memory replayed)).Nodup := by
  unfold merge_with_jsonl urlsOf
  rw [List.map_append, List.nodup_append]
  refine ⟨hm, ?_, ?_⟩
  · have hs :
        (replayed.filter fun r =>
          ¬ (memory.map fun s => jGet s "server_url").contains (jGet r "server_url")).Sublist
          replayed :=
      List.filter_sublist _
    exact hr.sublist (hs.map _)
  · intro x hx1 hx2
    obtain ⟨r, hrm, hre⟩ := List.mem_map.mp hx2
    have hcond := (List.mem_filter.mp hrm).2
    simp only [decide_eq_true_eq] at hcond
    apply hcond
    rw [contains_iff_mem_opt]
    rw [hre]
    exact hx1

/-- Claim C9 (counterexample): with an empty in-memory set and a durable
log holding two identical record lines, both replayed records survive the
merge — `existing_urls` is computed once from the in-memory records only —
so the final written sequence contains two records with the same
`server_url`. -/
theorem save_merge_keeps_duplicate_replayed_urls :
    ¬ (urlsOf (save_to_json_output dupParse [] [dupLine, dupLine])).Nodup := by
  decide

/-- Claim C9 (corrected): replaying the durable JSONL log reads every
line, keeps each non-blank line that parses and discards the rest, and
the merge deduplicates replayed records only against the in-memory
records (whose URL set is computed once): the final written sequence has
no duplicate `server_url` provided the in-memory records and the replayed
records each carry pairwise-distinct URLs — duplicates inside the
replayed log itself are NOT removed. -/
theorem save_to_json_replay_and_dedup :
    ∀ (parse : String → Option JObj) (memory : List JObj) (lines : List String),
      replay_jsonl parse lines = ((lines.map pyStripS).filter (· ≠ "")).filterMap parse ∧
      ((∀ r ∈ memory, ∃ v, jGet r "server_url" = some v) →
       (∀ r ∈ replay_jsonl parse lines, ∃ v, jGet r "server_url" = some v) →
       (urlsOf memory).Nodup →
       (urlsOf (replay_jsonl parse lines)).Nodup →
       (urlsOf (save_to_json_output parse memory lines)).Nodup) := by
  intro parse memory lines
  refine ⟨replay_jsonl_eq parse lines, ?_⟩
  intro hkm hkr hm hr
  have hmerged := merge_with_jsonl_urls_nodup memory (replay_jsonl parse lines) hm hr
  have hkeys : ∀ r ∈ merge_with_jsonl memory (replay_jsonl parse lines),
      ∃ v, jGet r "server_url" = some v := by
    intro r hrm
    unfold merge_with_jsonl at hrm
    rcases List.mem_append.mp hrm with h | h
    · exact hkm r h
    · exact hkr r (List.mem_filter.mp h).1
  have heq :
      urlsOf ((merge_with_jsonl memory (replay_jsonl parse lines)).map normalize_server) =
        urlsOf (merge_with_jsonl memory (replay_jsonl parse lines)) := by
    unfold urlsOf
    rw [List.map_map]
    apply List.map_congr_left
    intro r hrm
    obtain ⟨v, hv⟩ := hkeys r hrm
    show jGet (normalize_server r) "server_url" = jGet r "server_url"
    rw [normalize_server_url_field, hv]
    unfold jGetD
    rw [show List.lookup "server_url" r = some v from hv]
  show (urlsOf ((merge_with_jsonl memory (replay_jsonl parse lines)).map normalize_server)).Nodup
  rw [heq]
  exact hmerged

/-- Claim C9 (witness). -/
theorem save_to_json_replay_and_dedup_witness :
    (urlsOf (save_to_json_output dupParse [dupRecord] [])).Nodup :=
  (save_to_json_replay_and_dedup dupParse [dupRecord] []).2
    (by
      intro r hr
      simp only [List.mem_singleton] at hr
      subst hr
      exact ⟨_, rfl⟩)
    (by
      intro r hr
      rw [show replay_jsonl dupParse [] = [] from rfl] at hr
      exact absurd hr (List.not_mem_nil r))
    (by decide)
    (by decide)

/-- Claim C10 (confirmed): for every input dict, `normalize_server`
returns a record whose `total_tools` equals the length of its `tools`
list (the declared count carried by the input is overwritten): a non-list
`tools` value contributes the empty list, non-dict tool entries are
dropped, and each kept tool is reduced to exactly the fields `name`,
`description`, `inputSchema` with defaults `""`, `""`, `{}`. -/
theorem normalize_server_total_tools :
    ∀ server : JObj, ∃ ts : List JValue,
      jGet (normalize_server server) "tools" = some (.arr (JList.ofList ts)) ∧
      jGet (normalize_server server) "total_tools" = some (.num ts.length) ∧
      ts = (match jGetD server "tools" (.arr .nil) with
            | .arr xs => xs.toList
            | _ => []).filterMap (fun t : JValue =>
              match t with
              | .obj fields => some (JValue.obj (JFields.ofList (normalize_tool fields.toList)))
              | _ => none) ∧
      (∀ v, jGet server "tools" = some v → (∀ xs, v ≠ .arr xs) → ts = []) ∧
      (∀ t ∈ ts, ∃ fields, t = .obj (JFields.ofList (normalize_tool fields))) := by
  intro server
  refine ⟨_, rfl, rfl, rfl, ?_, ?_⟩
  · intro v hv hne
    have hd : jGetD server "tools" (.arr .nil) = v := by
      unfold jGetD
      rw [show List.lookup "tools" server = some v from hv]
    rw [hd]
    cases v with
    | arr xs => exact absurd rfl (hne xs)
    | str s => rfl
    | num n => rfl
    | bool b => rfl
    | null => rfl
    | obj fields => rfl
  · intro t ht
    obtain ⟨a, ha, hmatch⟩ := List.mem_filterMap.mp ht
    cases a with
    | str s => simp at hmatch
    | num n => simp at hmatch
    | bool b => simp at hmatch
    | null => simp at hmatch
    | arr xs => simp at hmatch
    | obj fields => exact ⟨fields.toList, by simpa using hmatch.symm⟩

/-- Claim C10 (witness). -/
theorem normalize_server_total_tools_witness :
    ∃ ts : List JValue,
      jGet (normalize_server sampleServer) "tools" = some (.arr (JList.ofList ts)) ∧
      jGet (normalize_server sampleServer) "total_tools" = some (.num ts.length) ∧
      ts = (match jGetD sampleServer "tools" (.arr .nil) with
            | .arr xs => xs.toList
            | _ => []).filterMap (fun t : JValue =>
              match t with
              | .obj fields => some (JValue.obj (JFields.ofList (normalize_tool fields.toList)))
              | _ => none) ∧
      (∀ v, jGet sampleServer "tools" = some v → (∀ xs, v ≠ .arr xs) → ts = []) ∧
      (∀ t ∈ ts, ∃ fields, t = .obj (JFields.ofList (normalize_tool fields))) :=
  normalize_server_total_tools sampleServer

end Scraper
